import Mathlib

/-!
Verification development for the minigames repository.

Shallow embedding of the pure game-logic modules:
  * `Sorting`  — src/renderer/games/SortingGame/gameLogic.ts (class SortingGameLogic)
  * `Tetris`   — src/renderer/games/TetrisPuzzle/gameLogic.ts (layout generation)
  * `Gradient` — src/renderer/games/GradientGame/gameLogic.ts (tiles / shuffle / swap)

Modelling conventions:
  * JS arrays become `List`s; `a[i]` with a possibly out-of-range index is
    modelled with `List.get?` / `List.getD`.
  * A JS `TypeError` thrown by dereferencing `undefined` is modelled by
    `Except.error ()`; operations that cannot throw return plain values.
  * An injected `() => float in [0,1)` RNG (`Math.random` or a seeded
    substitute) is modelled as a stream `rand : ℕ → ℚ` together with a counter
    of how many times it has been called so far.
  * Numeric JS values that stay integral are modelled as `ℕ`/`ℤ`; values where
    fractional results matter (RNG outputs, the float division in `checkWin`)
    are modelled as `ℚ`.
-/

/-- Swap the entries at positions `i` and `j`.  Models the JS idiom
`[a[i], a[j]] = [a[j], a[i]]` for in-range indices (all call sites below only
use in-range indices when the RNG stream is a genuine `[0,1)` stream). -/
def listSwap {α : Type} (l : List α) (i j : ℕ) : List α :=
  match l.get? i, l.get? j with
  | some a, some b => (l.set i b).set j a
  | _, _ => l

namespace Sorting

/-- A ring: unique id plus color tag.  The source id is the string
`ring-${n}` for a counter `n`; we keep the counter itself as the identity. -/
structure Ring where
  id : ℕ
  color : String
deriving DecidableEq, Inhabited, Repr

structure DifficultyConfig where
  pegs : ℕ
  height : ℕ
  colors : ℕ
deriving DecidableEq, Repr

inductive DifficultyLevel | easy | medium | hard | extreme | insane
deriving DecidableEq

def DIFFICULTY_LEVELS : DifficultyLevel → DifficultyConfig
  | .easy => ⟨7, 7, 5⟩
  | .medium => ⟨8, 8, 6⟩
  | .hard => ⟨9, 9, 7⟩
  | .extreme => ⟨10, 10, 8⟩
  | .insane => ⟨14, 8, 6⟩

def ALL_COLORS : List String :=
  ["#f44336", "#ff9800", "#ffc107", "#4caf50", "#2196f3", "#9c27b0", "#e5e5e5", "#323232"]

inductive MoveResult | ok | invalid | win | deadlock
deriving DecidableEq, Repr

/-- `shuffleArray`'s Fisher–Yates loop body, iterating `i` from
`array.length - 1` down to `1`; `k` counts RNG calls made so far. -/
def fisherYatesAux {α : Type} (rand : ℕ → ℚ) : ℕ → ℕ → List α → List α × ℕ
  | 0, k, l => (l, k)
  | i + 1, k, l =>
      let j : ℕ := (⌊rand k * ((i + 1 : ℕ) + 1 : ℚ)⌋).toNat
      fisherYatesAux rand i (k + 1) (listSwap l (i + 1) j)

/-- `shuffleArray(array, random)`: copy, then Fisher–Yates from the top index
down.  Returns the shuffled list and the updated RNG-call counter. -/
def shuffleArray {α : Type} (rand : ℕ → ℚ) (k : ℕ) (l : List α) : List α × ℕ :=
  fisherYatesAux rand (l.length - 1) k l

/-- Count of consecutive rings at the top of `peg` (its last element) sharing
the top ring's color; the loop walks from index `length - 2` down, breaking at
the first color mismatch. -/
def sameColorRun (color : String) : List Ring → ℕ
  | [] => 0
  | r :: rest => if r.color = color then sameColorRun color rest + 1 else 0

def getTopBlockSize (peg : List Ring) : ℕ :=
  match peg.getLast? with
  | none => 0
  | some top => 1 + sameColorRun top.color peg.reverse.tail

/-- The mutable fields of `class SortingGameLogic` plus its injected RNG.
`randCount` tracks how many times `this._random` has been called. -/
structure SortingGameLogic where
  state : List (List Ring)
  history : List (List (List Ring))
  config : DifficultyConfig
  colors : List String
  nextRingId : ℕ
  rand : ℕ → ℚ
  randCount : ℕ

def maxHistorySize : ℕ := 200

/-- `canMove(from, to)`.  `!source?.length` returns `false` when
`state[from]` is `undefined` (out of range) or empty; but `target.length` is
read without a guard, so an out-of-range `to` (with a non-empty source)
throws a TypeError — modelled as `Except.error ()`. -/
def canMoveE (st : List (List Ring)) (height f t : ℕ) : Except Unit Bool :=
  let source := st.getD f []
  if source.isEmpty then Except.ok false
  else if t < st.length then
    let target := st.getD t []
    let topColor := (source.getLastD default).color
    let blockSize := getTopBlockSize source
    if target.length > 0 ∧ (target.getLastD default).color ≠ topColor then Except.ok false
    else if target.length + blockSize > height then Except.ok false
    else Except.ok true
  else Except.error ()

/-- `canMove` at call sites whose target index is always in range
(`getHint`/`isDeadlocked` loop both indices over `state.length`, so the
`Except.error` branch is unreachable there). -/
def canMoveB (st : List (List Ring)) (height f t : ℕ) : Bool :=
  match canMoveE st height f t with
  | Except.ok b => b
  | Except.error _ => false

/-- `checkWin()`.  `pegsPerColor` is a float division in JS, modelled in `ℚ`;
the comparison `colorCounts[color] !== pegsPerColor` compares a count with
that (possibly fractional) value. -/
def checkWin (st : List (List Ring)) (cfg : DifficultyConfig) (colors : List String) : Bool :=
  let pegsPerColor : ℚ := ((cfg.pegs : ℚ) - 2) / (colors.length : ℚ)
  (st.all fun peg =>
    peg.isEmpty ||
      (peg.length == cfg.height && peg.all fun r => r.color == (peg.headD default).color))
  && (colors.all fun c =>
      decide ((st.countP (fun peg => !peg.isEmpty && (peg.headD default).color == c) : ℚ)
        = pegsPerColor))

/-- `isDeadlocked()`: no ordered pair `(from, to)`, `from ≠ to`, is movable. -/
def isDeadlocked (st : List (List Ring)) (height : ℕ) : Bool :=
  (List.range st.length).all fun f =>
    (List.range st.length).all fun t => f == t || !canMoveB st height f t

/-- `getHint()`: first movable ordered pair, outer loop over `from`, inner
over `to`. -/
def getHint (st : List (List Ring)) (height : ℕ) : Option (ℕ × ℕ) :=
  (List.range st.length).findSome? fun f =>
    (List.range st.length).findSome? fun t =>
      if f = t then none
      else if canMoveB st height f t then some (f, t) else none

/-- `pushHistory()`: append a deep copy of the current state (identity on our
pure values), evicting the oldest entry if over capacity. -/
def pushHistory (g : SortingGameLogic) : SortingGameLogic :=
  let h := g.history ++ [g.state]
  { g with history := if h.length > maxHistorySize then h.drop 1 else h }

/-- `move(from, to)`.  The JS body splices the top block out of
`this._state[from]` (in-place) and then pushes it onto `this._state[to]`;
reading the target *after* the splice (`st1` below) reproduces the aliasing
behavior when `from = to`. -/
def moveE (g : SortingGameLogic) (f t : ℕ) : Except Unit (MoveResult × SortingGameLogic) :=
  match canMoveE g.state g.config.height f t with
  | Except.error e => Except.error e
  | Except.ok false => Except.ok (MoveResult.invalid, g)
  | Except.ok true =>
    let g1 := pushHistory g
    let source := g1.state.getD f []
    let blockSize := getTopBlockSize source
    let moving := source.drop (source.length - blockSize)
    let st1 := g1.state.set f (source.take (source.length - blockSize))
    let st2 := st1.set t (st1.getD t [] ++ moving)
    let g2 := { g1 with state := st2 }
    if checkWin g2.state g2.config g2.colors then Except.ok (MoveResult.win, g2)
    else if isDeadlocked g2.state g2.config.height then Except.ok (MoveResult.deadlock, g2)
    else Except.ok (MoveResult.ok, g2)

/-- `undo()`: pop the newest snapshot (JS `Array.pop`) and install it. -/
def undo (g : SortingGameLogic) : Bool × SortingGameLogic :=
  match g.history.getLast? with
  | none => (false, g)
  | some s => (true, { g with state := s, history := g.history.dropLast })

/-- The ring pool built by `createInitialState`: `(pegs − 2) × height` rings,
ids from the running counter, colors assigned round-robin over the palette. -/
def ringPool (cfg : DifficultyConfig) (colors : List String) (nextId : ℕ) : List Ring :=
  (List.range ((cfg.pegs - 2) * cfg.height)).map fun i =>
    { id := nextId + i, color := colors.getD (i % colors.length) "" }

/-- `createInitialState()`: build the pool, shuffle it with the injected RNG,
deal sequentially into every peg except the last two (peg `p` receives the
slice `[p*height, (p+1)*height)` of the shuffled pool).  Returns the new peg
state, the advanced ring-id counter and the advanced RNG-call counter. -/
def createInitialState (cfg : DifficultyConfig) (colors : List String) (nextId : ℕ)
    (rand : ℕ → ℚ) (k : ℕ) : List (List Ring) × ℕ × ℕ :=
  let totalSlots := (cfg.pegs - 2) * cfg.height
  let (shuffled, k') := shuffleArray rand k (ringPool cfg colors nextId)
  ((List.range cfg.pegs).map fun p =>
      if p < cfg.pegs - 2 then (shuffled.drop (p * cfg.height)).take cfg.height else [],
    nextId + totalSlots, k')

/-- `reset()`: fresh deal, empty history. -/
def reset (g : SortingGameLogic) : SortingGameLogic :=
  let (st, nid, k') := createInitialState g.config g.colors g.nextRingId g.rand g.randCount
  { g with state := st, history := [], nextRingId := nid, randCount := k' }

/-- `new SortingGameLogic(difficulty, random)`: fix the config and palette
slice, then `reset()`. -/
def mkGame (d : DifficultyLevel) (rand : ℕ → ℚ) : SortingGameLogic :=
  reset { state := [], history := [], config := DIFFICULTY_LEVELS d,
          colors := ALL_COLORS.take (DIFFICULTY_LEVELS d).colors,
          nextRingId := 0, rand := rand, randCount := 0 }

/-- Public operations of the engine, for reachability statements.  `hintOp`
(`getHint`) and `winOp` (`checkWin`) are read-only; a `move` whose `canMove`
throws leaves the object unchanged (the exception propagates before any
mutation). -/
inductive Op
  | moveOp (f t : ℕ)
  | undoOp
  | resetOp
  | hintOp
  | winOp
deriving DecidableEq

def applyOp (g : SortingGameLogic) : Op → SortingGameLogic
  | .moveOp f t =>
      match moveE g f t with
      | Except.ok (_, g') => g'
      | Except.error _ => g
  | .undoOp => (undo g).2
  | .resetOp => reset g
  | .hintOp => g
  | .winOp => g

def applyOps (g : SortingGameLogic) (ops : List Op) : SortingGameLogic :=
  ops.foldl applyOp g

/-- The multiset of rings across all pegs. -/
def ringBag (st : List (List Ring)) : Multiset Ring :=
  (st.flatten : Multiset Ring)

end Sorting

namespace Sorting

theorem getTopBlockSize_pos (peg : List Ring) (h : peg ≠ []) : 0 < getTopBlockSize peg := by
  rw [getTopBlockSize]
  match hl : peg.getLast? with
  | none => exact absurd (List.getLast?_eq_none_iff.mp hl) h
  | some top => simp

/-- C1: for in-range `from ≠ to`, `canMove` returns `false` on an empty source
peg, and otherwise returns `true` exactly when the target is empty or matches
the source's top color, and the target's remaining capacity
`maxHeight − target.length` is at least the top same-color block size. -/
theorem canMove_matches_spec (st : List (List Ring)) (height f t : ℕ)
    (hf : f < st.length) (ht : t < st.length) (hne : f ≠ t) :
    (st.getD f [] = [] → canMoveE st height f t = Except.ok false) ∧
    (st.getD f [] ≠ [] →
      (canMoveE st height f t = Except.ok true ↔
        ((st.getD t [] = [] ∨
            ((st.getD t []).getLastD default).color = ((st.getD f []).getLastD default).color) ∧
          getTopBlockSize (st.getD f []) ≤ height - (st.getD t []).length))) := by
  constructor
  · intro hs
    have hs' : st[f]?.getD [] = [] := by simpa [List.getD] using hs
    simp [canMoveE, List.getD, hs']
  · intro hs
    have hbs : 0 < getTopBlockSize (st.getD f []) := getTopBlockSize_pos _ hs
    have hsE : (st.getD f []).isEmpty = false := by
      simpa [List.isEmpty_iff] using hs
    rw [canMoveE]
    simp only [hsE, Bool.false_eq_true, if_false, ht, if_true]
    split_ifs with h1 h2
    · obtain ⟨hlen, hcol⟩ := h1
      constructor
      · intro h; exact absurd h (by simp)
      · rintro ⟨hc, _⟩
        rcases hc with hc | hc
        · rw [hc] at hlen; simp at hlen
        · exact absurd hc hcol
    · constructor
      · intro h; exact absurd h (by simp)
      · rintro ⟨_, hcap⟩
        omega
    · constructor
      · intro _
        push_neg at h1
        constructor
        · rcases Nat.eq_zero_or_pos (st.getD t []).length with h0 | h0
          · exact Or.inl (List.length_eq_zero.mp h0)
          · exact Or.inr (h1 h0)
        · omega
      · intro _; rfl

theorem canMove_matches_spec_witness :
    canMoveE [[({ id := 0, color := "a" } : Ring)], []] 2 0 1 = Except.ok true :=
  ((canMove_matches_spec [[({ id := 0, color := "a" } : Ring)], []] 2 0 1
      (by decide) (by decide) (by decide)).2 (by decide)).mpr (by decide)

/-- C2: an illegal move (`canMove` evaluating to `false`) returns `invalid`
and leaves the engine — peg state and history — exactly unchanged. -/
theorem move_invalid_no_change (g : SortingGameLogic) (f t : ℕ)
    (h : canMoveE g.state g.config.height f t = Except.ok false) :
    moveE g f t = Except.ok (MoveResult.invalid, g) := by
  simp [moveE, h]

/-- Fixed sample engine object used by the witnesses below. -/
def sampleGame : SortingGameLogic :=
  { state := [[({ id := 0, color := "a" } : Ring)], []], history := [],
    config := ⟨2, 2, 1⟩, colors := ["a"], nextRingId := 1,
    rand := fun _ => 0, randCount := 0 }

theorem move_invalid_no_change_witness :
    moveE sampleGame 1 0 = Except.ok (MoveResult.invalid, sampleGame) :=
  move_invalid_no_change sampleGame 1 0 (by rfl)

theorem pushHistory_getLast (g : SortingGameLogic) :
    (pushHistory g).history.getLast? = some g.state := by
  rw [pushHistory]
  simp only []
  split_ifs with h
  · have hne : g.history ≠ [] := by
      intro he
      rw [he] at h
      simp [maxHistorySize] at h
    rw [List.drop_append_of_le_length (by
      have := List.length_pos.mpr hne; omega)]
    exact List.getLast?_concat _
  · exact List.getLast?_concat _

/-- C3: a legal move followed by `undo` succeeds and restores the exact
previous peg state (ring identities and order included). -/
theorem move_then_undo_restores (g : SortingGameLogic) (f t : ℕ)
    (h : canMoveE g.state g.config.height f t = Except.ok true) :
    ∃ r g', moveE g f t = Except.ok (r, g') ∧
      (undo g').1 = true ∧ ((undo g').2).state = g.state := by
  have hundo : ∀ gmid : SortingGameLogic, gmid.history = (pushHistory g).history →
      (undo gmid).1 = true ∧ ((undo gmid).2).state = g.state := by
    intro gmid hh
    rw [undo, hh, pushHistory_getLast g]
    exact ⟨rfl, rfl⟩
  rw [moveE]
  simp only [h]
  split_ifs with h1 h2
  · exact ⟨MoveResult.win, _, rfl, hundo _ rfl⟩
  · exact ⟨MoveResult.deadlock, _, rfl, hundo _ rfl⟩
  · exact ⟨MoveResult.ok, _, rfl, hundo _ rfl⟩

theorem move_then_undo_restores_witness :
    ∃ r g', moveE sampleGame 0 1 = Except.ok (r, g') ∧
      (undo g').1 = true ∧ ((undo g').2).state = sampleGame.state :=
  move_then_undo_restores sampleGame 0 1 (by rfl)

end Sorting

namespace Sorting

theorem pushHistory_length_le (g : SortingGameLogic) (h : g.history.length ≤ maxHistorySize) :
    (pushHistory g).history.length ≤ maxHistorySize := by
  rw [pushHistory]
  simp only []
  split_ifs with hc
  · simp only [List.length_drop, List.length_append, List.length_singleton]
    omega
  · simp only [List.length_append, List.length_singleton] at hc ⊢
    omega

theorem moveE_cases (g : SortingGameLogic) (f t : ℕ) :
    moveE g f t = Except.error () ∨
    moveE g f t = Except.ok (MoveResult.invalid, g) ∨
    ∃ r g2, moveE g f t = Except.ok (r, g2) ∧ g2.history = (pushHistory g).history := by
  rw [moveE]
  rcases hc : canMoveE g.state g.config.height f t with e | b
  · cases e
    exact Or.inl rfl
  · cases b
    · exact Or.inr (Or.inl rfl)
    · right; right
      dsimp only []
      split_ifs <;> exact ⟨_, _, rfl, rfl⟩

theorem applyOp_history_le (g : SortingGameLogic) (op : Op)
    (h : g.history.length ≤ maxHistorySize) :
    (applyOp g op).history.length ≤ maxHistorySize := by
  cases op with
  | moveOp f t =>
      rw [applyOp]
      rcases moveE_cases g f t with hc | hc | ⟨r, g2, hc, hh⟩
      · rw [hc]; exact h
      · rw [hc]; exact h
      · rw [hc]
        simpa [hh] using pushHistory_length_le g h
  | undoOp =>
      rw [applyOp, undo]
      cases hl : g.history.getLast? with
      | none => exact h
      | some s =>
          simp only [List.length_dropLast]
          omega
  | resetOp =>
      rw [applyOp, reset]
      simp
  | hintOp => exact h
  | winOp => exact h

theorem applyOps_history_le (ops : List Op) (g : SortingGameLogic)
    (h : g.history.length ≤ maxHistorySize) :
    (applyOps g ops).history.length ≤ maxHistorySize := by
  induction ops generalizing g with
  | nil => exact h
  | cons op rest ih => exact ih _ (applyOp_history_le g op h)

theorem mkGame_history (d : DifficultyLevel) (rand : ℕ → ℚ) :
    (mkGame d rand).history = [] := by
  rw [mkGame, reset]

theorem pushHistory_at_capacity (g : SortingGameLogic)
    (h : g.history.length = maxHistorySize) :
    (pushHistory g).history = g.history.drop 1 ++ [g.state] ∧
    (pushHistory g).history.length = maxHistorySize := by
  rw [pushHistory]
  dsimp only []
  split_ifs with hc
  · have h1 : 1 ≤ g.history.length := by
      rw [h]
      simp [maxHistorySize]
    refine ⟨List.drop_append_of_le_length h1, ?_⟩
    simp only [List.length_drop, List.length_append, List.length_singleton]
    omega
  · exfalso
    simp only [List.length_append, List.length_singleton, gt_iff_lt, not_lt] at hc
    omega

/-- C4: in every state reachable from construction by any sequence of public
operations, the history holds at most 200 snapshots; and a legal move made
with the history at capacity 200 evicts the oldest snapshot (index 0,
newest-last) instead of growing the history. -/
theorem history_capacity :
    (∀ (d : DifficultyLevel) (rand : ℕ → ℚ) (ops : List Op),
      (applyOps (mkGame d rand) ops).history.length ≤ maxHistorySize) ∧
    (∀ (g : SortingGameLogic) (f t : ℕ), g.history.length = maxHistorySize →
      canMoveE g.state g.config.height f t = Except.ok true →
      ∃ r g', moveE g f t = Except.ok (r, g') ∧
        g'.history = g.history.drop 1 ++ [g.state] ∧
        g'.history.length = maxHistorySize) := by
  constructor
  · intro d rand ops
    refine applyOps_history_le ops _ ?_
    rw [mkGame_history]
    simp [maxHistorySize]
  · intro g f t hlen hcan
    obtain ⟨hev, hev2⟩ := pushHistory_at_capacity g hlen
    rw [moveE, hcan]
    dsimp only []
    split_ifs <;> exact ⟨_, _, rfl, hev, hev2⟩

/-- A game object whose history is exactly at capacity, for the witness. -/
def capGame : SortingGameLogic :=
  { sampleGame with history := List.replicate maxHistorySize [] }

theorem history_capacity_witness :
    ∃ r g', moveE capGame 0 1 = Except.ok (r, g') ∧
      g'.history = capGame.history.drop 1 ++ [capGame.state] ∧
      g'.history.length = maxHistorySize :=
  history_capacity.2 capGame 0 1 (by simp [capGame]) (by rfl)

end Sorting

namespace Sorting

theorem pushHistory_state (g : SortingGameLogic) : (pushHistory g).state = g.state := rfl

theorem cons_coe_set {α : Type} (l : List α) (i : ℕ) (b : α) (h : i < l.length) :
    l[i] ::ₘ (↑(l.set i b) : Multiset α) = b ::ₘ (↑l : Multiset α) := by
  rw [Multiset.cons_coe, Multiset.cons_coe, Multiset.coe_eq_coe,
    List.set_eq_take_append_cons_drop, if_pos h]
  conv_rhs => rw [← List.take_append_drop i l, ← List.getElem_cons_drop l i h]
  exact List.Perm.trans (List.Perm.cons _ List.perm_middle)
    (List.Perm.trans (List.Perm.swap b l[i] _) (List.Perm.cons b List.perm_middle.symm))

theorem coe_listSwap {α : Type} (l : List α) (i j : ℕ) :
    (↑(listSwap l i j) : Multiset α) = ↑l := by
  rw [listSwap]
  rcases hi : l.get? i with _ | a <;> rcases hj : l.get? j with _ | b <;> try rfl
  have hil : i < l.length := (List.get?_eq_some.mp hi).1
  have hjl : j < l.length := (List.get?_eq_some.mp hj).1
  have hga : l[i] = a := (List.get?_eq_some.mp hi).2
  have hjl2 : j < (l.set i b).length := by simpa using hjl
  have hb2 : (l.set i b).get? j = some b := by
    by_cases hij : i = j
    · subst hij
      rw [hi] at hj
      cases hj
      exact List.get?_set_eq_of_lt _ hjl
    · rw [List.get?_set_ne _ _ hij]
      exact hj
  have hgb : (l.set i b)[j] = b := (List.get?_eq_some.mp hb2).2
  have e1 := cons_coe_set (l.set i b) j a hjl2
  have e2 := cons_coe_set l i b hil
  rw [hgb] at e1
  rw [hga] at e2
  exact (Multiset.cons_inj_right b).mp (e1.trans e2)

theorem fisherYatesAux_bag {α : Type} (rand : ℕ → ℚ) (i : ℕ) :
    ∀ (k : ℕ) (l : List α), ((fisherYatesAux rand i k l).1 : Multiset α) = ↑l := by
  induction i with
  | zero => intro k l; rfl
  | succ n ih =>
      intro k l
      simp only [fisherYatesAux]
      rw [ih, coe_listSwap]

theorem shuffleArray_bag {α : Type} (rand : ℕ → ℚ) (k : ℕ) (l : List α) :
    ((shuffleArray rand k l).1 : Multiset α) = ↑l :=
  fisherYatesAux_bag rand _ k l

theorem shuffleArray_length {α : Type} (rand : ℕ → ℚ) (k : ℕ) (l : List α) :
    (shuffleArray rand k l).1.length = l.length := by
  have := congrArg Multiset.card (shuffleArray_bag rand k l)
  simpa using this

theorem flatten_chunks {α : Type} (l : List α) (h : ℕ) (m : ℕ) :
    ((List.range m).map fun p => (l.drop (p * h)).take h).flatten = l.take (m * h) := by
  induction m with
  | zero => simp
  | succ n ih =>
      rw [List.range_succ, List.map_append, List.flatten_append, ih]
      simp only [List.map_cons, List.map_nil, List.flatten_cons, List.flatten_nil,
        List.append_nil]
      rw [← List.take_add, Nat.succ_mul]

theorem flatten_map_if {α : Type} (g : ℕ → List α) (k : ℕ) : ∀ (n : ℕ), k ≤ n →
    ((List.range n).map fun p => if p < k then g p else []).flatten
      = ((List.range k).map g).flatten := by
  intro n
  induction n with
  | zero =>
      intro h0
      have : k = 0 := Nat.le_zero.mp h0
      subst this; rfl
  | succ n ih =>
      intro hk
      by_cases hkn : k ≤ n
      · rw [List.range_succ, List.map_append, List.flatten_append, ih hkn]
        have hnk : ¬ (n < k) := by omega
        simp [hnk]
      · have hkeq : k = n + 1 := by omega
        subst hkeq
        congr 1
        apply List.map_congr_left
        intro p hp
        rw [if_pos (List.mem_range.mp hp)]

theorem ringPool_length (cfg : DifficultyConfig) (colors : List String) (nid : ℕ) :
    (ringPool cfg colors nid).length = (cfg.pegs - 2) * cfg.height := by
  simp [ringPool]

theorem createInitialState_bag (cfg : DifficultyConfig) (colors : List String) (nid : ℕ)
    (rand : ℕ → ℚ) (k : ℕ) :
    ringBag (createInitialState cfg colors nid rand k).1 = ↑(ringPool cfg colors nid) := by
  have hst : (createInitialState cfg colors nid rand k).1
      = (List.range cfg.pegs).map fun p =>
          if p < cfg.pegs - 2 then
            (((shuffleArray rand k (ringPool cfg colors nid)).1).drop (p * cfg.height)).take
              cfg.height
          else [] := rfl
  rw [ringBag, hst,
    flatten_map_if
      (fun p => (((shuffleArray rand k (ringPool cfg colors nid)).1).drop (p * cfg.height)).take
        cfg.height)
      (cfg.pegs - 2) cfg.pegs (Nat.sub_le _ _),
    flatten_chunks]
  rw [List.take_of_length_le
    (le_of_eq (by rw [shuffleArray_length, ringPool_length]))]
  exact shuffleArray_bag rand k _

theorem getD_eq_getElem {α : Type} (l : List α) (i : ℕ) (d : α) (h : i < l.length) :
    l.getD i d = l[i] := by
  rw [List.getD_eq_getElem?_getD, List.getElem?_eq_getElem h]
  rfl

theorem flatten_set_bag {α : Type} (st : List (List α)) (i : ℕ) (v : List α)
    (h : i < st.length) :
    (↑((st.set i v).flatten) : Multiset α) + ↑(st.getD i [])
      = ↑st.flatten + (↑v : Multiset α) := by
  rw [getD_eq_getElem st i [] h, List.set_eq_take_append_cons_drop, if_pos h]
  conv_rhs => rw [← List.take_append_drop i st, ← List.getElem_cons_drop st i h]
  simp only [List.flatten_append, List.flatten_cons, ← Multiset.coe_add]
  abel

end Sorting

namespace Sorting

theorem canMoveE_ok_true_elim (st : List (List Ring)) (height f t : ℕ)
    (h : canMoveE st height f t = Except.ok true) :
    st.getD f [] ≠ [] ∧ f < st.length ∧ t < st.length := by
  rw [canMoveE] at h
  dsimp only [] at h
  by_cases h1 : (st.getD f []).isEmpty
  · rw [if_pos h1] at h
    simp at h
  · rw [if_neg h1] at h
    have hne : st.getD f [] ≠ [] := fun he => h1 (by rw [he]; rfl)
    by_cases h2 : t < st.length
    · refine ⟨hne, ?_, h2⟩
      by_contra hf
      push_neg at hf
      exact hne (List.getD_eq_default _ _ hf)
    · rw [if_neg h2] at h
      simp at h

theorem move_state_bag (s : List (List Ring)) (f t n : ℕ)
    (hf : f < s.length) (ht : t < s.length) :
    ringBag ((s.set f ((s.getD f []).take n)).set t
      (((s.set f ((s.getD f []).take n)).getD t []) ++ (s.getD f []).drop n)) = ringBag s := by
  have ht1 : t < (s.set f ((s.getD f []).take n)).length := by simpa using ht
  have e1 := flatten_set_bag s f ((s.getD f []).take n) hf
  have e2 := flatten_set_bag (s.set f ((s.getD f []).take n)) t
    (((s.set f ((s.getD f []).take n)).getD t []) ++ (s.getD f []).drop n) ht1
  have hTM : (↑(s.getD f []) : Multiset Ring)
      = ↑((s.getD f []).take n) + ↑((s.getD f []).drop n) := by
    rw [Multiset.coe_add, List.take_append_drop]
  have key1 : (↑(s.set f ((s.getD f []).take n)).flatten : Multiset Ring)
      + ↑((s.getD f []).drop n) = ↑s.flatten := by
    have h1 : ((↑(s.set f ((s.getD f []).take n)).flatten : Multiset Ring)
        + ↑((s.getD f []).drop n)) + ↑((s.getD f []).take n)
        = ↑s.flatten + ↑((s.getD f []).take n) := by
      calc ((↑(s.set f ((s.getD f []).take n)).flatten : Multiset Ring)
            + ↑((s.getD f []).drop n)) + ↑((s.getD f []).take n)
          = ↑(s.set f ((s.getD f []).take n)).flatten
            + (↑((s.getD f []).take n) + ↑((s.getD f []).drop n)) := by abel
        _ = ↑(s.set f ((s.getD f []).take n)).flatten + ↑(s.getD f []) := by rw [← hTM]
        _ = ↑s.flatten + ↑((s.getD f []).take n) := e1
    exact add_right_cancel h1
  have key2 : (↑(((s.set f ((s.getD f []).take n)).set t
      (((s.set f ((s.getD f []).take n)).getD t []) ++ (s.getD f []).drop n)).flatten)
        : Multiset Ring)
      = ↑(s.set f ((s.getD f []).take n)).flatten + ↑((s.getD f []).drop n) := by
    have h2 : (↑(((s.set f ((s.getD f []).take n)).set t
        (((s.set f ((s.getD f []).take n)).getD t []) ++ (s.getD f []).drop n)).flatten)
          : Multiset Ring) + ↑((s.set f ((s.getD f []).take n)).getD t [])
        = (↑(s.set f ((s.getD f []).take n)).flatten + ↑((s.getD f []).drop n))
          + ↑((s.set f ((s.getD f []).take n)).getD t []) := by
      calc (↑(((s.set f ((s.getD f []).take n)).set t
            (((s.set f ((s.getD f []).take n)).getD t []) ++ (s.getD f []).drop n)).flatten)
              : Multiset Ring) + ↑((s.set f ((s.getD f []).take n)).getD t [])
          = ↑(s.set f ((s.getD f []).take n)).flatten
            + ↑(((s.set f ((s.getD f []).take n)).getD t []) ++ (s.getD f []).drop n) := e2
        _ = ↑(s.set f ((s.getD f []).take n)).flatten
            + (↑((s.set f ((s.getD f []).take n)).getD t []) + ↑((s.getD f []).drop n)) := by
              rw [← Multiset.coe_add]
        _ = (↑(s.set f ((s.getD f []).take n)).flatten + ↑((s.getD f []).drop n))
            + ↑((s.set f ((s.getD f []).take n)).getD t []) := by abel
    exact add_right_cancel h2
  show (↑(((s.set f ((s.getD f []).take n)).set t
      (((s.set f ((s.getD f []).take n)).getD t []) ++ (s.getD f []).drop n)).flatten)
        : Multiset Ring) = ↑s.flatten
  rw [key2, key1]

theorem moveE_ok_inv (g : SortingGameLogic) (f t : ℕ) (r : MoveResult) (g2 : SortingGameLogic)
    (h : moveE g f t = Except.ok (r, g2)) :
    ringBag g2.state = ringBag g.state ∧
    (g2.history = g.history ∨ g2.history = (pushHistory g).history) := by
  rw [moveE] at h
  rcases hcm : canMoveE g.state g.config.height f t with e | b
  · rw [hcm] at h
    simp at h
  · cases b
    · rw [hcm] at h
      dsimp only [] at h
      simp only [Except.ok.injEq, Prod.mk.injEq] at h
      obtain ⟨hr, hg⟩ := h
      subst hg
      exact ⟨rfl, Or.inl rfl⟩
    · rw [hcm] at h
      dsimp only [pushHistory_state] at h
      obtain ⟨hsrc, hf, ht⟩ := canMoveE_ok_true_elim _ _ _ _ hcm
      split_ifs at h <;>
        · simp only [Except.ok.injEq, Prod.mk.injEq] at h
          obtain ⟨hr, hg⟩ := h
          subst hg
          exact ⟨move_state_bag g.state f t _ hf ht, Or.inr rfl⟩

theorem undo_inv (g : SortingGameLogic) :
    ((undo g).2.state = g.state ∨ (undo g).2.state ∈ g.history) ∧
    (∀ st ∈ (undo g).2.history, st ∈ g.history) := by
  rcases hl : g.history.getLast? with _ | s
  · rw [undo, hl]
    exact ⟨Or.inl rfl, fun st hst => hst⟩
  · rw [undo, hl]
    exact ⟨Or.inr (List.mem_of_mem_getLast? hl), fun st hst => List.mem_of_mem_dropLast hst⟩

theorem pushHistory_mem (g : SortingGameLogic) (st : List (List Ring))
    (h : st ∈ (pushHistory g).history) : st ∈ g.history ∨ st = g.state := by
  rw [pushHistory] at h
  dsimp only [] at h
  split_ifs at h with hc
  · rcases List.mem_append.mp (List.mem_of_mem_drop h) with h1 | h1
    · exact Or.inl h1
    · exact Or.inr (List.mem_singleton.mp h1)
  · rcases List.mem_append.mp h with h1 | h1
    · exact Or.inl h1
    · exact Or.inr (List.mem_singleton.mp h1)

/-- The conserved quantity: peg contents and all history snapshots carry the
initial ring pool. -/
def BagInv (pool : Multiset Ring) (g : SortingGameLogic) : Prop :=
  ringBag g.state = pool ∧ ∀ st ∈ g.history, ringBag st = pool

theorem applyOp_bagInv (pool : Multiset Ring) (g : SortingGameLogic) (op : Op)
    (hop : op ≠ Op.resetOp) (h : BagInv pool g) : BagInv pool (applyOp g op) := by
  obtain ⟨h1, h2⟩ := h
  cases op with
  | moveOp f t =>
      rw [applyOp]
      rcases hm : moveE g f t with e | ⟨r, g2⟩
      · exact ⟨h1, h2⟩
      · dsimp only []
        obtain ⟨hbag, hhist⟩ := moveE_ok_inv g f t r g2 hm
        refine ⟨hbag.trans h1, ?_⟩
        intro st hst
        rcases hhist with hh | hh
        · exact h2 st (hh ▸ hst)
        · rw [hh] at hst
          rcases pushHistory_mem g st hst with hmem | hmem
          · exact h2 st hmem
          · rw [hmem]; exact h1
  | undoOp =>
      obtain ⟨hstate, hhist⟩ := undo_inv g
      rw [applyOp]
      refine ⟨?_, fun st hst => h2 st (hhist st hst)⟩
      rcases hstate with hs | hs
      · rw [hs]; exact h1
      · exact h2 _ hs
  | resetOp => exact absurd rfl hop
  | hintOp => exact ⟨h1, h2⟩
  | winOp => exact ⟨h1, h2⟩

theorem applyOps_bagInv (pool : Multiset Ring) (ops : List Op) :
    ∀ g : SortingGameLogic, Op.resetOp ∉ ops → BagInv pool g →
      BagInv pool (applyOps g ops) := by
  induction ops with
  | nil => exact fun g _ h => h
  | cons op rest ih =>
      intro g hmem h
      have hop : op ≠ Op.resetOp := fun he => hmem (he ▸ List.mem_cons_self op rest)
      have hrest : Op.resetOp ∉ rest := fun he => hmem (List.mem_cons_of_mem op he)
      exact ih _ hrest (applyOp_bagInv pool g op hop h)

theorem mkGame_bagInv (d : DifficultyLevel) (rand : ℕ → ℚ) :
    BagInv (↑(ringPool (DIFFICULTY_LEVELS d) (ALL_COLORS.take (DIFFICULTY_LEVELS d).colors) 0))
      (mkGame d rand) := by
  constructor
  · exact createInitialState_bag (DIFFICULTY_LEVELS d)
      (ALL_COLORS.take (DIFFICULTY_LEVELS d).colors) 0 rand 0
  · intro st hst
    rw [mkGame_history] at hst
    exact absurd hst (List.not_mem_nil st)

/-- C10: under any sequence of `move`, `undo`, `getHint` and `checkWin` calls
from construction, the multiset of rings across all pegs stays exactly the
initial pool of `(pegs − 2) × height` rings with colors assigned round-robin
over the palette: no operation creates, destroys, duplicates or recolors a
ring. -/
theorem ring_conservation (d : DifficultyLevel) (rand : ℕ → ℚ)
    (hrand : ∀ k, 0 ≤ rand k ∧ rand k < 1) (ops : List Op) (hres : Op.resetOp ∉ ops) :
    ringBag (applyOps (mkGame d rand) ops).state
      = ↑(ringPool (DIFFICULTY_LEVELS d) (ALL_COLORS.take (DIFFICULTY_LEVELS d).colors) 0) :=
  (applyOps_bagInv _ ops (mkGame d rand) hres (mkGame_bagInv d rand)).1

theorem ring_conservation_witness :
    ringBag (applyOps (mkGame DifficultyLevel.easy fun _ => 0) [Op.moveOp 0 5]).state
      = ↑(ringPool (DIFFICULTY_LEVELS DifficultyLevel.easy)
          (ALL_COLORS.take (DIFFICULTY_LEVELS DifficultyLevel.easy).colors) 0) :=
  ring_conservation DifficultyLevel.easy (fun _ => 0)
    (fun _ => ⟨le_refl 0, by norm_num⟩) [Op.moveOp 0 5] (by decide)

end Sorting

namespace Gradient

/-- A tile; the source id is `tile-${i}` and the color a hex string.  We keep
the index as identity and the color as the rounded RGB triple the hex string
encodes (`toHex` is injective on clamped rounded triples, and no claim below
depends on the textual form). -/
structure Tile where
  id : ℕ
  color : ℤ × ℤ × ℤ
  correctIndex : ℕ
  isAnchor : Bool
deriving DecidableEq, Inhabited, Repr

/-- Level data used by `generateTiles`: grid size, the four parsed corner
colors (`parseColor` output), and the anchor index set. -/
structure LevelConfig where
  cols : ℕ
  rows : ℕ
  topLeft : ℚ × ℚ × ℚ
  topRight : ℚ × ℚ × ℚ
  bottomLeft : ℚ × ℚ × ℚ
  bottomRight : ℚ × ℚ × ℚ
  anchors : List ℕ

/-- `toHex`'s per-channel `Math.round(Math.max(0, Math.min(255, x)))`. -/
def clampRound (x : ℚ) : ℤ := round (max 0 (min 255 x))

/-- `bilinearInterpolate`: lerp along the top and bottom edges, then lerp
vertically, per RGB channel; JS float arithmetic modelled in `ℚ`. -/
def bilinearInterpolate (tl tr bl br : ℚ × ℚ × ℚ) (x y : ℚ) : ℤ × ℤ × ℤ :=
  let topR := tl.1 + (tr.1 - tl.1) * x
  let topG := tl.2.1 + (tr.2.1 - tl.2.1) * x
  let topB := tl.2.2 + (tr.2.2 - tl.2.2) * x
  let bottomR := bl.1 + (br.1 - bl.1) * x
  let bottomG := bl.2.1 + (br.2.1 - bl.2.1) * x
  let bottomB := bl.2.2 + (br.2.2 - bl.2.2) * x
  (clampRound (topR + (bottomR - topR) * y),
   clampRound (topG + (bottomG - topG) * y),
   clampRound (topB + (bottomB - topB) * y))

/-- `generateTiles(level)`. -/
def generateTiles (level : LevelConfig) : List Tile :=
  (List.range (level.cols * level.rows)).map fun i =>
    let row := i / level.cols
    let col := i % level.cols
    let x : ℚ := if level.cols = 1 then 0 else (col : ℚ) / ((level.cols : ℚ) - 1)
    let y : ℚ := if level.rows = 1 then 0 else (row : ℚ) / ((level.rows : ℚ) - 1)
    { id := i,
      color := bilinearInterpolate level.topLeft level.topRight level.bottomLeft
        level.bottomRight x y,
      correctIndex := i,
      isAnchor := level.anchors.contains i }

/-- The indices whose tile is not an anchor, collected in increasing order
(the first loop of `shuffleTiles`). -/
def nonAnchorIndices (tiles : List Tile) : List ℕ :=
  (List.range tiles.length).filter fun i => !(tiles.getD i default).isAnchor

/-- `checkComplete(tiles)`: every tile's `correctIndex` equals its index. -/
def checkComplete (tiles : List Tile) : Bool :=
  (List.range tiles.length).all fun i => (tiles.getD i default).correctIndex == i

/-- The Fisher–Yates loop of `shuffleTiles`, swapping only positions listed in
`nA`; `i` runs from `nA.length - 1` down to `1`, `k` counts RNG calls. -/
def shuffleLoopAux (rand : ℕ → ℚ) (nA : List ℕ) : ℕ → ℕ → List Tile → List Tile
  | 0, _, res => res
  | i + 1, k, res =>
      let j : ℕ := (⌊rand k * ((i + 1 : ℕ) + 1 : ℚ)⌋).toNat
      shuffleLoopAux rand nA i (k + 1) (listSwap res (nA.getD (i + 1) 0) (nA.getD j 0))

/-- `shuffleTiles(tiles)`: shuffle the non-anchor positions; if the result is
coincidentally solved and at least two non-anchor tiles exist, swap the first
two non-anchor positions. -/
def shuffleTiles (rand : ℕ → ℚ) (tiles : List Tile) : List Tile :=
  let nA := nonAnchorIndices tiles
  let shuffled := shuffleLoopAux rand nA (nA.length - 1) 0 tiles
  if checkComplete shuffled ∧ 2 ≤ nA.length then
    match nA with
    | i :: j :: _ => listSwap shuffled i j
    | _ => shuffled
  else shuffled

/-- `swapTiles(tiles, indexA, indexB)`: `tiles[indexA].isAnchor` is read
unguarded, so an out-of-range `indexA` — or, when `tiles[indexA]` exists and
is not an anchor, an out-of-range `indexB` — throws a TypeError
(`Except.error ()`); an anchor yields `null` (`Except.ok none`). -/
def swapTilesE (tiles : List Tile) (a b : ℕ) : Except Unit (Option (List Tile)) :=
  match tiles.get? a with
  | none => Except.error ()
  | some ta =>
      if ta.isAnchor then Except.ok none
      else match tiles.get? b with
        | none => Except.error ()
        | some tb =>
            if tb.isAnchor then Except.ok none
            else Except.ok (some (listSwap tiles a b))

theorem listSwap_length {α : Type} (l : List α) (i j : ℕ) :
    (listSwap l i j).length = l.length := by
  rw [listSwap]
  rcases l.get? i with _ | a <;> rcases l.get? j with _ | b <;> simp

theorem shuffleLoopAux_length (rand : ℕ → ℚ) (nA : List ℕ) (i : ℕ) :
    ∀ (k : ℕ) (res : List Tile),
      (shuffleLoopAux rand nA i k res).length = res.length := by
  induction i with
  | zero => intro k res; rfl
  | succ n ih =>
      intro k res
      simp only [shuffleLoopAux]
      rw [ih, listSwap_length]

theorem nonAnchorIndices_lt (tiles : List Tile) (i : ℕ)
    (h : i ∈ nonAnchorIndices tiles) : i < tiles.length :=
  List.mem_range.mp (List.mem_filter.mp h).1

theorem nonAnchorIndices_sorted (tiles : List Tile) :
    (nonAnchorIndices tiles).Pairwise (· < ·) :=
  List.Pairwise.filter _ (List.pairwise_lt_range _)

theorem checkComplete_eq_true_iff (tiles : List Tile) :
    checkComplete tiles = true ↔
      ∀ i < tiles.length, (tiles.getD i default).correctIndex = i := by
  rw [checkComplete, List.all_eq_true]
  constructor
  · intro h i hi
    exact eq_of_beq (h i (List.mem_range.mpr hi))
  · intro h i hi
    exact beq_iff_eq.mpr (h i (List.mem_range.mp hi))

/-- After swapping two distinct in-range positions of a solved arrangement,
position `i` holds the tile whose `correctIndex` is `j`. -/
theorem listSwap_getD_of_lt (l : List Tile) (i j : ℕ) (hi : i < l.length)
    (hj : j < l.length) (hne : i ≠ j) :
    (listSwap l i j).getD i default = l.getD j default := by
  rw [listSwap]
  rcases hgi : l.get? i with _ | a
  · exact absurd hgi (by simp [List.get?_eq_getElem?, List.getElem?_eq_getElem hi])
  · rcases hgj : l.get? j with _ | b
    · exact absurd hgj (by simp [List.get?_eq_getElem?, List.getElem?_eq_getElem hj])
    · have h1 : ((l.set i b).set j a).get? i = some b := by
        rw [List.get?_set_ne _ _ (Ne.symm hne)]
        exact List.get?_set_eq_of_lt _ hi
      rw [List.getD_eq_getElem?_getD, ← List.get?_eq_getElem?, h1,
        List.getD_eq_getElem?_getD, ← List.get?_eq_getElem?, hgj]

theorem shuffled_not_complete_of_fix (shuffled : List Tile) (i j : ℕ) (rest : List ℕ)
    (hi : i < shuffled.length) (hj : j < shuffled.length) (hij : i < j)
    (hsolved : checkComplete shuffled = true) :
    checkComplete (listSwap shuffled i j) = false := by
  have hgd : (listSwap shuffled i j).getD i default = shuffled.getD j default :=
    listSwap_getD_of_lt shuffled i j hi hj (Nat.ne_of_lt hij)
  have hcj : (shuffled.getD j default).correctIndex = j :=
    (checkComplete_eq_true_iff shuffled).mp hsolved j hj
  rw [Bool.eq_false_iff]
  intro hall
  have hlen : (listSwap shuffled i j).length = shuffled.length := listSwap_length _ _ _
  have := (checkComplete_eq_true_iff _).mp hall i (by rw [hlen]; exact hi)
  rw [hgd, hcj] at this
  exact absurd this (Nat.ne_of_lt hij).symm

/-- Core of C8, for an arbitrary tile array: whatever the RNG produced, the
post-shuffle fix-up guarantees the arrangement is not solved when at least two
non-anchor positions exist. -/
theorem shuffleTiles_not_complete (tiles : List Tile) (rand : ℕ → ℚ)
    (h2 : 2 ≤ (nonAnchorIndices tiles).length) :
    checkComplete (shuffleTiles rand tiles) = false := by
  rw [shuffleTiles]
  split_ifs with hcond
  · obtain ⟨hsolved, _⟩ := hcond
    rcases hnA : nonAnchorIndices tiles with _ | ⟨i, _ | ⟨j, rest⟩⟩
    · rw [hnA] at h2; simp at h2
    · rw [hnA] at h2; simp at h2
    · have hlen : (shuffleLoopAux rand (i :: j :: rest)
          ((i :: j :: rest).length - 1) 0 tiles).length = tiles.length :=
        shuffleLoopAux_length _ _ _ _ _
      have hij : i < j := by
        have := nonAnchorIndices_sorted tiles
        rw [hnA] at this
        exact (List.pairwise_cons.mp this).1 j (List.mem_cons_self j rest)
      have hi : i < tiles.length :=
        nonAnchorIndices_lt tiles i (by rw [hnA]; exact List.mem_cons_self _ _)
      have hj : j < tiles.length :=
        nonAnchorIndices_lt tiles j
          (by rw [hnA]; exact List.mem_cons_of_mem i (List.mem_cons_self j rest))
      rw [hnA] at hsolved
      dsimp only []
      exact shuffled_not_complete_of_fix _ i j rest (by rw [hlen]; exact hi)
        (by rw [hlen]; exact hj) hij hsolved
  · rw [not_and_or] at hcond
    rcases hcond with hc | hc
    · exact Bool.eq_false_iff.mpr hc
    · exact absurd h2 hc

/-- C8: `shuffleTiles` applied to `generateTiles` output is never solved when
the level has at least two non-anchor tiles, for every RNG outcome. -/
theorem generated_shuffle_never_solved (level : LevelConfig) (rand : ℕ → ℚ)
    (hrand : ∀ k, 0 ≤ rand k ∧ rand k < 1)
    (h2 : 2 ≤ (nonAnchorIndices (generateTiles level)).length) :
    checkComplete (shuffleTiles rand (generateTiles level)) = false :=
  shuffleTiles_not_complete (generateTiles level) rand h2

/-- A tiny two-tile anchor-free level for the witnesses. -/
def sampleLevel : LevelConfig :=
  { cols := 2, rows := 1, topLeft := (0, 0, 0), topRight := (255, 255, 255),
    bottomLeft := (0, 0, 0), bottomRight := (255, 255, 255), anchors := [] }

theorem generated_shuffle_never_solved_witness :
    checkComplete (shuffleTiles (fun _ => 0) (generateTiles sampleLevel)) = false :=
  generated_shuffle_never_solved sampleLevel (fun _ => 0)
    (fun _ => ⟨le_refl 0, by norm_num⟩) (by decide)

end Gradient

/-- C9 (code bug): the engines do throw on some out-of-range indices.
`canMove(from, to)` guards the source with optional chaining but reads
`target.length` unguarded, so a non-empty in-range source with an
out-of-range target throws a TypeError (and `move` propagates it);
`swapTiles` reads `tiles[indexA].isAnchor` unguarded and throws likewise.
Out-of-range *source* peg indices do return the documented sentinel. -/
theorem engines_throw_on_out_of_range_target :
    Sorting.canMoveE Sorting.sampleGame.state Sorting.sampleGame.config.height 0 5
        = Except.error () ∧
    Sorting.moveE Sorting.sampleGame 0 5 = Except.error () ∧
    Gradient.swapTilesE (Gradient.generateTiles Gradient.sampleLevel) 5 0
        = Except.error () ∧
    Sorting.canMoveE Sorting.sampleGame.state Sorting.sampleGame.config.height 7 0
        = Except.ok false :=
  ⟨rfl, rfl, rfl, rfl⟩

namespace Tetris

inductive Tet | I | O | T | S | Z | J | L
deriving DecidableEq, Inhabited, Repr, Fintype

/-- `TETROMINO_SHAPES`: per type, the four rotations as lists of
non-negative `(row, col)` offsets from the bounding-box top-left. -/
def shapesList : Tet → List (List (ℕ × ℕ))
  | .I => [[(0,0),(0,1),(0,2),(0,3)], [(0,0),(1,0),(2,0),(3,0)],
           [(0,0),(0,1),(0,2),(0,3)], [(0,0),(1,0),(2,0),(3,0)]]
  | .O => [[(0,0),(0,1),(1,0),(1,1)], [(0,0),(0,1),(1,0),(1,1)],
           [(0,0),(0,1),(1,0),(1,1)], [(0,0),(0,1),(1,0),(1,1)]]
  | .T => [[(0,0),(0,1),(0,2),(1,1)], [(0,0),(1,0),(1,1),(2,0)],
           [(0,1),(1,0),(1,1),(1,2)], [(0,1),(1,0),(1,1),(2,1)]]
  | .S => [[(0,1),(0,2),(1,0),(1,1)], [(0,0),(1,0),(1,1),(2,1)],
           [(0,1),(0,2),(1,0),(1,1)], [(0,0),(1,0),(1,1),(2,1)]]
  | .Z => [[(0,0),(0,1),(1,1),(1,2)], [(0,1),(1,0),(1,1),(2,0)],
           [(0,0),(0,1),(1,1),(1,2)], [(0,1),(1,0),(1,1),(2,0)]]
  | .J => [[(0,0),(1,0),(1,1),(1,2)], [(0,0),(0,1),(1,0),(2,0)],
           [(0,0),(0,1),(0,2),(1,2)], [(0,1),(1,1),(2,0),(2,1)]]
  | .L => [[(0,2),(1,0),(1,1),(1,2)], [(0,0),(1,0),(2,0),(2,1)],
           [(0,0),(0,1),(0,2),(1,0)], [(0,0),(0,1),(1,1),(2,1)]]

def TETROMINO_SHAPES (t : Tet) (r : Fin 4) : List (ℕ × ℕ) :=
  (shapesList t).getD r.val []

/-- One generated layout entry `{ type, layoutRotation, cells }`. -/
structure LayoutPiece where
  type : Tet
  layoutRotation : Fin 4
  cells : List (ℕ × ℕ)
deriving DecidableEq, Inhabited, Repr

/-- The two RNG-driven shuffles `[...].sort(() => random() - 0.5)` abstracted
as an oracle threading an RNG state `σ`: `shuffleTypes` yields the order in
which the 7 piece types are tried at a cell, `shuffleRots` the rotation order
tried for one type.  The coverage and groundedness theorems are proved for
every oracle; `jsOracle` below instantiates `σ` with the mulberry32 state. -/
structure ShuffleOracle (σ : Type) where
  shuffleTypes : σ → List Tet × σ
  shuffleRots : σ → List (Fin 4) × σ

def shapeCells (t : Tet) (r : Fin 4) (baseR baseC : ℕ) : List (ℕ × ℕ) :=
  (TETROMINO_SHAPES t r).map fun p => (baseR + p.1, baseC + p.2)

/-- `cells.every(([nr, nc]) => nr >= 0 && nr < H && nc >= 0 && nc < W &&
!used[nr][nc])`; the boolean occupancy grid is modelled as the `Finset` of
occupied cells. -/
def cellsValid (W H : ℕ) (used : Finset (ℕ × ℕ)) (cells : List (ℕ × ℕ)) : Bool :=
  cells.all fun c => decide (c.1 < H) && decide (c.2 < W) && decide (c ∉ used)

/-- `rc` is the lowest cell of its column within `cells` (the source collects
per-column maxima in `columnBottoms`; checking every cell that is a column
maximum is the same check). -/
def isColumnBottom (cells : List (ℕ × ℕ)) (rc : ℕ × ℕ) : Bool :=
  cells.all fun c => decide (c.2 ≠ rc.2) || decide (c.1 ≤ rc.1)

/-- `isPieceGrounded(cells, used, fieldHeight)`: every column-bottom cell is
on the floor or sits directly on an occupied cell. -/
def isPieceGrounded (cells : List (ℕ × ℕ)) (used : Finset (ℕ × ℕ)) (H : ℕ) : Bool :=
  cells.all fun rc =>
    !(isColumnBottom cells rc) || decide (rc.1 = H - 1) || decide ((rc.1 + 1, rc.2) ∈ used)

/-- The `shapeIdx` loop: try each shape cell as the anchor aligned to
`(row, col)`.  JS computes `baseRow = row - anchorDr` (possibly negative) and
rejects negative positions through the `>= 0` cell checks; since every shape
has a cell with row-offset 0 and a cell with col-offset 0, requiring
`anchorDr ≤ row ∧ anchorDc ≤ col` rejects exactly the same placements. -/
def tryAnchors (W H : ℕ) (used : Finset (ℕ × ℕ)) (t : Tet) (r : Fin 4) (row col : ℕ) :
    Option (List (ℕ × ℕ)) :=
  (TETROMINO_SHAPES t r).findSome? fun a =>
    if a.1 ≤ row ∧ a.2 ≤ col then
      let cells := shapeCells t r (row - a.1) (col - a.2)
      if cellsValid W H used cells && isPieceGrounded cells used H then some cells else none
    else none

/-- The rotation loop over the oracle-ordered rotations. -/
def tryRotations (W H : ℕ) (used : Finset (ℕ × ℕ)) (t : Tet) (rots : List (Fin 4))
    (row col : ℕ) : Option (Fin 4 × List (ℕ × ℕ)) :=
  rots.findSome? fun r => (tryAnchors W H used t r row col).map fun cells => (r, cells)

/-- The type loop: a fresh rotation order is drawn from the RNG for each type
tried, as in the source. -/
def tryTypes {σ : Type} (orc : ShuffleOracle σ) (W H : ℕ) (used : Finset (ℕ × ℕ))
    (row col : ℕ) : List Tet → σ → Option (Tet × Fin 4 × List (ℕ × ℕ)) × σ
  | [], s => (none, s)
  | t :: rest, s =>
      let rs := orc.shuffleRots s
      match tryRotations W H used t rs.1 row col with
      | some (r, cells) => (some (t, r, cells), rs.2)
      | none => tryTypes orc W H used row col rest rs.2

/-- Mutable state of one fill attempt. -/
structure AttemptState (σ : Type) where
  used : Finset (ℕ × ℕ)
  pieces : List LayoutPiece
  failed : Bool
  rng : σ

/-- Body of the cell loop: skip when already failed (JS breaks out of both
loops) or when the cell is covered; otherwise draw a type order and try to
place, recording failure if nothing fits. -/
def attemptStep {σ : Type} (orc : ShuffleOracle σ) (W H : ℕ) (st : AttemptState σ)
    (rc : ℕ × ℕ) : AttemptState σ :=
  if st.failed then st
  else if rc ∈ st.used then st
  else
    let ts := orc.shuffleTypes st.rng
    match tryTypes orc W H st.used rc.1 rc.2 ts.1 ts.2 with
    | (some (t, r, cells), s2) =>
        { used := st.used ∪ cells.toFinset,
          pieces := st.pieces ++ [⟨t, r, cells⟩], failed := false, rng := s2 }
    | (none, s2) => { st with failed := true, rng := s2 }

/-- Cell visit order: rows bottom-to-top, columns left-to-right. -/
def cellOrder (W H : ℕ) : List (ℕ × ℕ) :=
  (((List.range H).reverse).map fun row => (List.range W).map fun col => (row, col)).flatten

/-- One attempt: run the cell loop, then return the pieces only if no cell
failed and the explicit full-coverage check passes. -/
def runAttempt {σ : Type} (orc : ShuffleOracle σ) (W H : ℕ) (s : σ) :
    Option (List LayoutPiece) × σ :=
  let final := (cellOrder W H).foldl (attemptStep orc W H) ⟨∅, [], false, s⟩
  if !final.failed
      && (List.range H).all (fun r => (List.range W).all fun c => decide ((r, c) ∈ final.used))
  then (some final.pieces, final.rng)
  else (none, final.rng)

/-- `tryGenerate(maxAttempts)`: up to `n` attempts on the shared RNG stream. -/
def tryGenerate {σ : Type} (orc : ShuffleOracle σ) (W H : ℕ) :
    ℕ → σ → Option (List LayoutPiece) × σ
  | 0, s => (none, s)
  | n + 1, s =>
      match runAttempt orc W H s with
      | (some ps, s') => (some ps, s')
      | (none, s') => tryGenerate orc W H n s'

/-- The fallback keeps its own local boolean occupancy grid `used`
(`used[row][col]`), modelled directly as a `List (List Bool)`. -/
def gridGet (used : List (List Bool)) (r c : ℕ) : Bool := (used.getD r []).getD c false

def gridSet (used : List (List Bool)) (r c : ℕ) : List (List Bool) :=
  used.set r ((used.getD r []).set c true)

/-- `cells.forEach(([r, c]) => used[r][c] = true)`. -/
def markCells (used : List (List Bool)) (cells : List (ℕ × ℕ)) : List (List Bool) :=
  cells.foldl (fun u rc => gridSet u rc.1 rc.2) used

def emptyGrid (W H : ℕ) : List (List Bool) := List.replicate H (List.replicate W false)

/-- `for (let c = col; c < fieldWidth && !used[row][c]; c++) freeCount++`. -/
def countFreeRight (W row : ℕ) (used : List (List Bool)) : ℕ → ℕ → ℕ
  | 0, _ => 0
  | fuel + 1, col =>
      if col < W ∧ gridGet used row col = false then
        countFreeRight W row used fuel (col + 1) + 1
      else 0

/-- The `while (col < fieldWidth)` loop of the fallback's row pass; each
iteration advances `col` by at least 1, so `W` is enough fuel. -/
def fbRowLoop (W row : ℕ) : ℕ → ℕ → List (List Bool) → List LayoutPiece →
    List (List Bool) × List LayoutPiece
  | 0, _, used, ps => (used, ps)
  | fuel + 1, col, used, ps =>
      if col < W then
        if gridGet used row col then fbRowLoop W row fuel (col + 1) used ps
        else
          let freeCount := countFreeRight W row used W col
          if 4 ≤ freeCount then
            let cells : List (ℕ × ℕ) :=
              [(row, col), (row, col + 1), (row, col + 2), (row, col + 3)]
            fbRowLoop W row fuel (col + 4) (markCells used cells)
              (ps ++ [⟨Tet.I, 0, cells⟩])
          else if 2 ≤ freeCount ∧ 1 ≤ row ∧ gridGet used (row - 1) col = false ∧
              gridGet used (row - 1) (col + 1) = false then
            let cells : List (ℕ × ℕ) :=
              [(row - 1, col), (row - 1, col + 1), (row, col), (row, col + 1)]
            fbRowLoop W row fuel (col + 2) (markCells used cells)
              (ps ++ [⟨Tet.O, 0, cells⟩])
          else fbRowLoop W row fuel (col + 1) used ps
      else (used, ps)

/-- `for (let r = row; r >= 0 && !used[r][col]; r--) freeCount++`. -/
def countFreeUp (col : ℕ) (used : List (List Bool)) : ℕ → ℕ → ℕ
  | 0, _ => 0
  | fuel + 1, row =>
      if gridGet used row col = false then
        if row = 0 then 1 else countFreeUp col used fuel (row - 1) + 1
      else 0

/-- The `while (row >= 0)` loop of the fallback's column pass, rows walked
bottom-up; leaving at `row = 0` models the JS index going negative. -/
def fbColLoop (H col : ℕ) : ℕ → ℕ → List (List Bool) → List LayoutPiece →
    List (List Bool) × List LayoutPiece
  | 0, _, used, ps => (used, ps)
  | fuel + 1, row, used, ps =>
      if gridGet used row col then
        if row = 0 then (used, ps) else fbColLoop H col fuel (row - 1) used ps
      else
        let freeCount := countFreeUp col used H row
        if 4 ≤ freeCount then
          let cells : List (ℕ × ℕ) :=
            [(row, col), (row - 1, col), (row - 2, col), (row - 3, col)]
          let used2 := markCells used cells
          let ps2 := ps ++ [⟨Tet.I, 1, cells⟩]
          if 4 ≤ row then fbColLoop H col fuel (row - 4) used2 ps2 else (used2, ps2)
        else if row = 0 then (used, ps) else fbColLoop H col fuel (row - 1) used ps

/-- `generateFallbackLayout`: greedy horizontal I-runs and 2×2 O-blocks per
row (bottom-up), then vertical I-runs per column.  The `random` parameter of
the source is never called, so the fallback is deterministic. -/
def generateFallbackLayout (W H : ℕ) : List LayoutPiece :=
  let pass1 := ((List.range H).reverse).foldl
    (fun acc row => fbRowLoop W row W 0 acc.1 acc.2) (emptyGrid W H, [])
  let pass2 := (List.range W).foldl
    (fun acc col => fbColLoop H col H (H - 1) acc.1 acc.2) pass1
  pass2.2

/-- One call of the `mulberry32` closure, 32-bit arithmetic in `ℕ` mod `2^32`
(`Math.imul` keeps the low 32 bits of the product; `^`, `|`, `>>>` operate on
the 32-bit pattern).  Returns the new closure state and the 32-bit output
`t`; the returned float is `t / 2^32`. -/
def mulberry32Next (state : ℕ) : ℕ × ℕ :=
  let a := (state + 0x6D2B79F5) % 2 ^ 32
  let b := (Nat.xor a (a >>> 15)) * (a ||| 1) % 2 ^ 32
  let c := Nat.xor b ((b + (Nat.xor b (b >>> 7)) * (b ||| 61) % 2 ^ 32) % 2 ^ 32)
  (a, Nat.xor c (c >>> 14))

/-- The comparator `() => random() - 0.5` is `≤ 0` exactly when the 32-bit
output is at most `2^31`; in that case `a` stays before `b`. -/
def randKeep (s : ℕ) : Bool × ℕ :=
  let r := mulberry32Next s
  (decide (r.2 ≤ 2 ^ 31), r.1)

/-- `Array.prototype.sort` with an impure comparator is engine-defined; we
model it as insertion sort querying the comparator once per comparison on the
same RNG stream.  No theorem below depends on this choice: the layout safety
theorems quantify over arbitrary oracles. -/
def insertRng {α : Type} (x : α) : List α → ℕ → List α × ℕ
  | [], s => ([x], s)
  | y :: ys, s =>
      let c := randKeep s
      if c.1 then (x :: y :: ys, c.2)
      else
        let rest := insertRng x ys c.2
        (y :: rest.1, rest.2)

def sortRng {α : Type} (l : List α) (s : ℕ) : List α × ℕ :=
  l.foldl (fun acc x => let r := insertRng x acc.1 acc.2; (r.1, r.2)) ([], s)

def tetrominoTypes : List Tet := [.I, .O, .T, .S, .Z, .J, .L]

def rotationOrder : List (Fin 4) := [0, 1, 2, 3]

def jsOracle : ShuffleOracle ℕ :=
  { shuffleTypes := fun s => sortRng tetrominoTypes s,
    shuffleRots := fun s => sortRng rotationOrder s }

def generatePieceLayoutWith {σ : Type} (orc : ShuffleOracle σ) (W H : ℕ) (s : σ) :
    List LayoutPiece :=
  match tryGenerate orc W H 50 s with
  | (some ps, _) => ps
  | (none, _) => generateFallbackLayout W H

/-- `generatePieceLayout(fieldWidth, fieldHeight, seed)`; the integer seed
enters the mulberry32 state through 32-bit coercion. -/
def generatePieceLayout (W H : ℕ) (seed : ℤ) : List LayoutPiece :=
  generatePieceLayoutWith jsOracle W H (seed.emod (2 ^ 32)).toNat

/-- All cells of all pieces of a layout, in order. -/
def allCells (ps : List LayoutPiece) : List (ℕ × ℕ) :=
  (ps.map fun p => p.cells).flatten

end Tetris

namespace Tetris

/-- The claim's groundedness notion for one piece relative to the cells
covered earlier: every column-bottom cell of the piece is in the bottom row
or sits directly above an earlier cell. -/
def groundedRel (cells earlier : List (ℕ × ℕ)) (H : ℕ) : Prop :=
  ∀ rc ∈ cells, (∀ rc2 ∈ cells, rc2.2 = rc.2 → rc2.1 ≤ rc.1) →
    rc.1 = H - 1 ∨ (rc.1 + 1, rc.2) ∈ earlier

/-- Every piece of the sequence is grounded relative to the pieces placed
before it in the sequence. -/
def GroundedSeq (ps : List LayoutPiece) (H : ℕ) : Prop :=
  ∀ (i : ℕ) (h : i < ps.length), groundedRel (ps.get ⟨i, h⟩).cells (allCells (ps.take i)) H

theorem shapes_nodup : ∀ (t : Tet) (r : Fin 4), (TETROMINO_SHAPES t r).Nodup := by decide

theorem shapeCells_nodup (t : Tet) (r : Fin 4) (bR bC : ℕ) :
    (shapeCells t r bR bC).Nodup := by
  refine List.Nodup.map ?_ (shapes_nodup t r)
  intro p q hpq
  have h1 : bR + p.1 = bR + q.1 := congrArg Prod.fst hpq
  have h2 : bC + p.2 = bC + q.2 := congrArg Prod.snd hpq
  have e1 : p.1 = q.1 := by omega
  have e2 : p.2 = q.2 := by omega
  cases p; cases q
  simp_all

theorem tryAnchors_spec (W H : ℕ) (used : Finset (ℕ × ℕ)) (t : Tet) (r : Fin 4)
    (row col : ℕ) (cells : List (ℕ × ℕ))
    (h : tryAnchors W H used t r row col = some cells) :
    cells.Nodup ∧ (∀ c ∈ cells, c.1 < H ∧ c.2 < W ∧ c ∉ used) ∧
      isPieceGrounded cells used H = true := by
  obtain ⟨a, _, hfa⟩ := List.exists_of_findSome?_eq_some h
  dsimp only [] at hfa
  split_ifs at hfa with h1 h2
  · injection hfa with hfa
    subst hfa
    rw [Bool.and_eq_true] at h2
    obtain ⟨hv, hg⟩ := h2
    refine ⟨shapeCells_nodup t r _ _, ?_, hg⟩
    intro c hc
    have := List.all_eq_true.mp hv c hc
    simp only [Bool.and_eq_true, decide_eq_true_eq] at this
    exact ⟨this.1.1, this.1.2, this.2⟩

theorem tryRotations_spec (W H : ℕ) (used : Finset (ℕ × ℕ)) (t : Tet)
    (rots : List (Fin 4)) (row col : ℕ) (r : Fin 4) (cells : List (ℕ × ℕ))
    (h : tryRotations W H used t rots row col = some (r, cells)) :
    tryAnchors W H used t r row col = some cells := by
  obtain ⟨r2, _, hr2⟩ := List.exists_of_findSome?_eq_some h
  rcases hm : tryAnchors W H used t r2 row col with _ | cs
  · rw [hm] at hr2
    simp at hr2
  · rw [hm] at hr2
    simp only [Option.map_some'] at hr2
    injection hr2 with hr2
    have e1 : r2 = r := congrArg Prod.fst hr2
    have e2 : cs = cells := congrArg Prod.snd hr2
    subst e1
    subst e2
    exact hm

theorem tryTypes_spec {σ : Type} (orc : ShuffleOracle σ) (W H : ℕ)
    (used : Finset (ℕ × ℕ)) (row col : ℕ) :
    ∀ (ts : List Tet) (s : σ) (t : Tet) (r : Fin 4) (cells : List (ℕ × ℕ)) (s2 : σ),
      tryTypes orc W H used row col ts s = (some (t, r, cells), s2) →
      ∃ rots, tryRotations W H used t rots row col = some (r, cells) := by
  intro ts
  induction ts with
  | nil =>
      intro s t r cells s2 h
      rw [tryTypes] at h
      simp at h
  | cons t1 rest ih =>
      intro s t r cells s2 h
      rw [tryTypes] at h
      try dsimp only [] at h
      rcases htr : tryRotations W H used t1 (orc.shuffleRots s).1 row col with _ | rc2
      · rw [htr] at h
        exact ih _ t r cells s2 h
      · rw [htr] at h
        obtain ⟨r2, cs⟩ := rc2
        simp only [Prod.mk.injEq, Option.some.injEq] at h
        obtain ⟨⟨ht1, hr2, hcs⟩, _⟩ := h
        subst ht1
        subst hr2
        subst hcs
        exact ⟨_, htr⟩

theorem isPieceGrounded_to_rel (cells : List (ℕ × ℕ)) (used : Finset (ℕ × ℕ)) (H : ℕ)
    (earlier : List (ℕ × ℕ)) (he : ∀ x, x ∈ earlier ↔ x ∈ used)
    (h : isPieceGrounded cells used H = true) : groundedRel cells earlier H := by
  intro rc hrc hbot
  have hcb : isColumnBottom cells rc = true := by
    rw [isColumnBottom, List.all_eq_true]
    intro c hc
    by_cases hcol : c.2 = rc.2
    · have := hbot c hc hcol
      simp [this]
    · simp [hcol]
  have hall := List.all_eq_true.mp h rc hrc
  rw [hcb] at hall
  simp only [Bool.not_true, Bool.false_or, Bool.or_eq_true, decide_eq_true_eq] at hall
  rcases hall with h1 | h1
  · exact Or.inl h1
  · exact Or.inr ((he _).mpr h1)

/-- Invariant of one fill attempt: the recorded pieces have pairwise-distinct
in-bounds cells whose set is exactly the occupancy set, and each piece was
grounded on the cells placed before it. -/
def GoodState (W H : ℕ) {σ : Type} (st : AttemptState σ) : Prop :=
  (allCells st.pieces).Nodup ∧
  (allCells st.pieces).toFinset = st.used ∧
  (∀ rc ∈ allCells st.pieces, rc.1 < H ∧ rc.2 < W) ∧
  GroundedSeq st.pieces H

theorem allCells_append (ps : List LayoutPiece) (q : LayoutPiece) :
    allCells (ps ++ [q]) = allCells ps ++ q.cells := by
  simp [allCells]

theorem groundedSeq_append (ps : List LayoutPiece) (q : LayoutPiece) (H : ℕ)
    (h1 : GroundedSeq ps H) (h2 : groundedRel q.cells (allCells ps) H) :
    GroundedSeq (ps ++ [q]) H := by
  intro i hi
  rw [List.length_append, List.length_singleton] at hi
  by_cases hlt : i < ps.length
  · have hget : (ps ++ [q]).get ⟨i, by rw [List.length_append]; omega⟩ = ps.get ⟨i, hlt⟩ := by
      rw [List.get_append i hlt]
    rw [hget, List.take_append_eq_append_take, show i - ps.length = 0 by omega]
    simp only [List.take_zero, List.append_nil]
    exact h1 i hlt
  · have hieq : i = ps.length := by omega
    subst hieq
    have hget : (ps ++ [q]).get ⟨ps.length, by simp⟩ = q := by
      simp
    rw [hget, List.take_append_eq_append_take]
    simp only [Nat.sub_self, List.take_zero, List.append_nil, List.take_length]
    exact h2

end Tetris

namespace Tetris

theorem attemptStep_good {σ : Type} (orc : ShuffleOracle σ) (W H : ℕ)
    (st : AttemptState σ) (rc : ℕ × ℕ) (h : GoodState W H st) :
    GoodState W H (attemptStep orc W H st rc) := by
  rw [attemptStep]
  split_ifs with h1 h2
  · exact h
  · exact h
  · try dsimp only []
    rcases hm : tryTypes orc W H st.used rc.1 rc.2 (orc.shuffleTypes st.rng).1
        (orc.shuffleTypes st.rng).2 with ⟨o, s2⟩
    cases o with
    | none => exact h
    | some trc =>
        obtain ⟨t, r, cells⟩ := trc
        obtain ⟨rots, hrot⟩ := tryTypes_spec orc W H st.used rc.1 rc.2 _ _ t r cells s2 hm
        obtain ⟨hnd, hok, hg⟩ := tryAnchors_spec W H st.used t r rc.1 rc.2 cells
          (tryRotations_spec W H st.used t rots rc.1 rc.2 r cells hrot)
        obtain ⟨good1, good2, good3, good4⟩ := h
        have hdisj : ∀ a ∈ allCells st.pieces, a ∉ cells := by
          intro a ha hac
          have : a ∈ st.used := by
            rw [← good2]
            exact List.mem_toFinset.mpr ha
          exact (hok a hac).2.2 this
        refine ⟨?_, ?_, ?_, ?_⟩
        · rw [allCells_append]
          exact List.Nodup.append good1 hnd hdisj
        · rw [allCells_append, List.toFinset_append, good2]
        · rw [allCells_append]
          intro a ha
          rcases List.mem_append.mp ha with ha | ha
          · exact good3 a ha
          · exact ⟨(hok a ha).1, (hok a ha).2.1⟩
        · exact groundedSeq_append st.pieces _ H good4
            (isPieceGrounded_to_rel cells st.used H (allCells st.pieces)
              (fun x => by rw [← good2]; exact List.mem_toFinset.symm) hg)

theorem foldl_good {σ : Type} (orc : ShuffleOracle σ) (W H : ℕ) :
    ∀ (l : List (ℕ × ℕ)) (st : AttemptState σ), GoodState W H st →
      GoodState W H (l.foldl (attemptStep orc W H) st) := by
  intro l
  induction l with
  | nil => exact fun st h => h
  | cons c rest ih => exact fun st h => ih _ (attemptStep_good orc W H st c h)

theorem initial_good {σ : Type} (orc : ShuffleOracle σ) (W H : ℕ) (s : σ) :
    GoodState W H (⟨∅, [], false, s⟩ : AttemptState σ) := by
  refine ⟨List.nodup_nil, ?_, ?_, ?_⟩
  · simp [allCells]
  · intro rc hrc
    simp [allCells] at hrc
  · intro i hi
    simp [List.length_nil] at hi

theorem runAttempt_some {σ : Type} (orc : ShuffleOracle σ) (W H : ℕ) (s : σ)
    (ps : List LayoutPiece) (s2 : σ) (h : runAttempt orc W H s = (some ps, s2)) :
    (allCells ps).Nodup ∧ (∀ rc ∈ allCells ps, rc.1 < H ∧ rc.2 < W) ∧
      (∀ r, r < H → ∀ c, c < W → (r, c) ∈ allCells ps) ∧ GroundedSeq ps H := by
  simp only [runAttempt] at h
  have hg : GoodState W H ((cellOrder W H).foldl (attemptStep orc W H) ⟨∅, [], false, s⟩) :=
    foldl_good orc W H _ _ (initial_good orc W H s)
  split_ifs at h with hc
  · simp only [Prod.mk.injEq, Option.some.injEq] at h
    obtain ⟨hps, _⟩ := h
    subst hps
    obtain ⟨g1, g2, g3, g4⟩ := hg
    rw [Bool.and_eq_true] at hc
    refine ⟨g1, g3, ?_, g4⟩
    intro r hr c hcw
    have hrow := List.all_eq_true.mp hc.2 r (List.mem_range.mpr hr)
    have hcell := List.all_eq_true.mp hrow c (List.mem_range.mpr hcw)
    rw [decide_eq_true_eq, ← g2] at hcell
    exact List.mem_toFinset.mp hcell
  · simp at h

theorem tryGenerate_some {σ : Type} (orc : ShuffleOracle σ) (W H : ℕ) :
    ∀ (n : ℕ) (s : σ) (ps : List LayoutPiece) (s2 : σ),
      tryGenerate orc W H n s = (some ps, s2) →
      (allCells ps).Nodup ∧ (∀ rc ∈ allCells ps, rc.1 < H ∧ rc.2 < W) ∧
        (∀ r, r < H → ∀ c, c < W → (r, c) ∈ allCells ps) ∧ GroundedSeq ps H := by
  intro n
  induction n with
  | zero =>
      intro s ps s2 h
      rw [tryGenerate] at h
      simp at h
  | succ n ih =>
      intro s ps s2 h
      rw [tryGenerate] at h
      rcases hr : runAttempt orc W H s with ⟨o, s3⟩
      rw [hr] at h
      cases o with
      | some qs =>
          dsimp only [] at h
          simp only [Prod.mk.injEq, Option.some.injEq] at h
          obtain ⟨hq, _⟩ := h
          subst hq
          exact runAttempt_some orc W H s _ s3 hr
      | none =>
          dsimp only [] at h
          exact ih s3 ps s2 h

/-- Executable check for `groundedRel`. -/
def groundedRelB (cells earlier : List (ℕ × ℕ)) (H : ℕ) : Bool :=
  cells.all fun rc =>
    !(isColumnBottom cells rc) || decide (rc.1 = H - 1) || decide ((rc.1 + 1, rc.2) ∈ earlier)

/-- Executable check for `GroundedSeq`. -/
def groundedSeqB (ps : List LayoutPiece) (H : ℕ) : Bool :=
  (List.range ps.length).all fun i =>
    groundedRelB (ps.getD i default).cells (allCells (ps.take i)) H

theorem groundedRelB_to_rel (cells earlier : List (ℕ × ℕ)) (H : ℕ)
    (h : groundedRelB cells earlier H = true) : groundedRel cells earlier H := by
  intro rc hrc hbot
  have hcb : isColumnBottom cells rc = true := by
    rw [isColumnBottom, List.all_eq_true]
    intro c hc
    by_cases hcol : c.2 = rc.2
    · have := hbot c hc hcol
      simp [this]
    · simp [hcol]
  have hall := List.all_eq_true.mp h rc hrc
  rw [hcb] at hall
  simp only [Bool.not_true, Bool.false_or, Bool.or_eq_true, decide_eq_true_eq] at hall
  exact hall

theorem groundedSeqB_to_seq (ps : List LayoutPiece) (H : ℕ)
    (h : groundedSeqB ps H = true) : GroundedSeq ps H := by
  intro i hi
  have hall := List.all_eq_true.mp h i (List.mem_range.mpr hi)
  have hgd : ps.getD i default = ps.get ⟨i, hi⟩ := by
    rw [Sorting.getD_eq_getElem ps i default hi]
    simp
  rw [hgd] at hall
  exact groundedRelB_to_rel _ _ _ hall

end Tetris

namespace Tetris

set_option maxRecDepth 100000

theorem fallback_facts :
    (allCells (generateFallbackLayout 10 16)).Nodup ∧
    (∀ rc ∈ allCells (generateFallbackLayout 10 16), rc.1 < 16 ∧ rc.2 < 10) ∧
    (∀ r, r < 16 → ∀ c, c < 10 → (r, c) ∈ allCells (generateFallbackLayout 10 16)) :=
  ⟨by decide, by decide, by decide⟩

theorem fallback_grounded : GroundedSeq (generateFallbackLayout 10 16) 16 :=
  groundedSeqB_to_seq _ _ (by decide)

/-- C5: on the game's field (10 columns × 16 rows), `generatePieceLayout`
partitions the field for every integer seed: the cells of the returned pieces
are pairwise distinct, all inside the field, and cover every one of the 160
cells — including when all 50 randomized attempts fail and the fallback
tiling is used. -/
theorem layout_partitions_field (seed : ℤ) :
    (allCells (generatePieceLayout 10 16 seed)).Nodup ∧
    (∀ rc ∈ allCells (generatePieceLayout 10 16 seed), rc.1 < 16 ∧ rc.2 < 10) ∧
    (∀ r, r < 16 → ∀ c, c < 10 → (r, c) ∈ allCells (generatePieceLayout 10 16 seed)) := by
  rw [generatePieceLayout, generatePieceLayoutWith]
  rcases htg : tryGenerate jsOracle 10 16 50 (seed.emod (2 ^ 32)).toNat with ⟨o, s2⟩
  cases o with
  | none => exact fallback_facts
  | some ps =>
      obtain ⟨h1, h2, h3, _⟩ := tryGenerate_some jsOracle 10 16 50 _ ps s2 htg
      exact ⟨h1, h2, h3⟩

theorem layout_partitions_field_witness :
    ((0 : ℕ), (0 : ℕ)) ∈ allCells (generatePieceLayout 10 16 0) :=
  (layout_partitions_field 0).2.2 0 (by norm_num) 0 (by norm_num)

/-- C6: every piece of the returned sequence is grounded relative to the
pieces that precede it in the sequence: each of its column-bottom cells is in
the bottom row or directly above a cell of an earlier piece. -/
theorem layout_grounded_sequence (seed : ℤ) :
    GroundedSeq (generatePieceLayout 10 16 seed) 16 := by
  rw [generatePieceLayout, generatePieceLayoutWith]
  rcases htg : tryGenerate jsOracle 10 16 50 (seed.emod (2 ^ 32)).toNat with ⟨o, s2⟩
  cases o with
  | none => exact fallback_grounded
  | some ps => exact (tryGenerate_some jsOracle 10 16 50 _ ps s2 htg).2.2.2

theorem layout_grounded_sequence_witness :
    GroundedSeq (generatePieceLayout 10 16 0) 16 :=
  layout_grounded_sequence 0

/-- C7: `generatePieceLayout` is a deterministic function of its arguments:
equal field dimensions and seed give identical piece lists — same types,
layout rotations and cells, in the same order.  The embedding takes no other
input: the only randomness is the seeded mulberry32 stream. -/
theorem generatePieceLayout_deterministic (W H : ℕ) (s : ℤ) (W2 H2 : ℕ) (s2 : ℤ)
    (hW : W = W2) (hH : H = H2) (hs : s = s2) :
    generatePieceLayout W H s = generatePieceLayout W2 H2 s2 := by
  subst hW
  subst hH
  subst hs
  rfl

theorem generatePieceLayout_deterministic_witness :
    generatePieceLayout 10 16 7 = generatePieceLayout 10 16 7 :=
  generatePieceLayout_deterministic 10 16 7 10 16 7 rfl rfl rfl

end Tetris
